import Mathlib

/-!
Verification of the cirq parser utilities
(python/cuquantum/cutensornet/_internal/cirq_parser_utils.py).

The circuit data model is embedded shallowly: a circuit is an ordered list of
moments, a moment an ordered list of operations, an operation a gate label
with a measurement flag and an ordered tuple of qubit identifiers.  Qubit
identifiers are opaque, totally ordered, hashable tokens, embedded as natural
numbers.  The dense numeric contents of gate unitaries live in external
libraries (cirq, cupy) and are represented at the level of array shapes.
-/

namespace CirqParserUtils

/-- Qubit identifier: an opaque, totally ordered, hashable token. -/
abbrev Qubit := Nat

/-- An operation: a gate label, whether the gate is a measurement gate, and
the ordered tuple of qubits it acts on. -/
structure Operation where
  gateId : Nat
  isMeas : Bool
  qubits : List Qubit
deriving DecidableEq, Repr

/-- A moment: a time step of a circuit, holding its operations in order. -/
abbrev Moment := List Operation

/-- A circuit: an ordered sequence of moments. -/
abbrev Circuit := List Moment

/-- All operations of a circuit in moment-then-within-moment order
(cirq circuit.all_operations). -/
def all_operations (c : Circuit) : List Operation :=
  c.flatten

/-- The set of all qubit identifiers referenced anywhere in a circuit
(cirq circuit.all_qubits). -/
def allQubits (c : Circuit) : Finset Qubit :=
  ((all_operations c).flatMap Operation.qubits).toFinset

/-! ### Measurement stripping (remove_measurements) -/

/-- Modelled from the spec: the external circuit framework can detect
measurement operations; a circuit has measurements when any operation is a
measurement (cirq circuit.has_measurements). -/
def has_measurements (c : Circuit) : Bool :=
  (all_operations c).any (fun op => op.isMeas)

/-- Whether two operations share a qubit wire. -/
def sharesQubitWith (op op2 : Operation) : Bool :=
  op.qubits.any (fun q => decide (q ∈ op2.qubits))

/-- Whether some non-measurement operation in the given later moments acts on
a qubit of the given operation. -/
def hasNonMeasFollower (op : Operation) (later : List Moment) : Bool :=
  later.any (fun m => m.any (fun op2 => !op2.isMeas && sharesQubitWith op op2))

/-- Modelled from the spec: the external check that every measurement is
terminal, a measurement being terminal when no non-measurement operation on
a shared qubit occurs in any later moment
(cirq circuit.are_all_measurements_terminal). -/
def areAllMeasurementsTerminal : Circuit → Bool
  | [] => true
  | m :: rest =>
      m.all (fun op => !op.isMeas || !hasNonMeasFollower op rest) &&
        areAllMeasurementsTerminal rest

/-- Removal of every measurement operation from every moment, leaving the
other operations in place (cirq findall_operations + batch_remove; empty
moments remain in place). -/
def stripMeasurements (c : Circuit) : Circuit :=
  c.map (fun m => m.filter (fun op => !op.isMeas))

/-- The error raised for mid-circuit measurements; the spec labels it
UnsupportedCircuitError. -/
inductive CircuitError where
  | unsupportedCircuitError
deriving DecidableEq, Repr

/-- remove_measurements: return a circuit with final measurement operations
removed, failing when a measurement is not terminal. -/
def remove_measurements (c : Circuit) : Except CircuitError Circuit :=
  if has_measurements c then
    if !areAllMeasurementsTerminal c then
      .error .unsupportedCircuitError
    else
      .ok (stripMeasurements c)
  else
    .ok c

/-- The claim-level notion of a non-terminal measurement: a measurement
operation followed, in a strictly later moment, by a non-measurement
operation acting on one of its qubits. -/
def NonTerminalMeasurement (c : Circuit) : Prop :=
  ∃ i, ∃ h : i < c.length, ∃ op ∈ c.get ⟨i, h⟩,
    op.isMeas = true ∧
      ∃ op2 ∈ (c.drop (i + 1)).flatten,
        op2.isMeas = false ∧ ∃ q ∈ op.qubits, q ∈ op2.qubits

/-! ### Lightcone reduction (get_lightcone_circuit) -/

/-- The inner loop of get_lightcone_circuit over one moment, scanning the
reversed operation list and threading the growing coned set.  When the coned
set already has as many elements as the circuit has qubits, the remaining
operations are copied verbatim (within-moment short circuit). -/
def processOps (nq : Nat) : List Operation → Finset Qubit → List Operation × Finset Qubit
  | [], coned => ([], coned)
  | op :: rest, coned =>
      if coned.card = nq then
        (op :: rest, coned)
      else if (op.qubits.toFinset ∩ coned).Nonempty then
        let r := processOps nq rest (coned ∪ op.qubits.toFinset)
        (op :: r.1, r.2)
      else
        processOps nq rest coned

/-- The outer loop of get_lightcone_circuit over the reversed moment list.
When the coned set already has as many elements as the circuit has qubits,
the remaining moments are copied verbatim (whole-moment short circuit). -/
def processMoments (nq : Nat) : List Moment → Finset Qubit → List Moment
  | [], _ => []
  | m :: rest, coned =>
      if coned.card = nq then
        m :: rest
      else
        let r := processOps nq m.reverse coned
        r.1.reverse :: processMoments nq rest r.2

/-- get_lightcone_circuit: reduce the circuit to the operations causally
connected to the coned qubits, scanning moments and operations in reverse
and reversing the result back to forward time order. -/
def get_lightcone_circuit (c : Circuit) (conedQubits : Finset Qubit) : Circuit :=
  (processMoments (allQubits c).card c.reverse conedQubits).reverse

/-- The inner loop with the within-moment short circuit removed.  Modelled
from the spec: the reference version of the filter against which the
short-circuit steps are compared. -/
def processOpsRef : List Operation → Finset Qubit → List Operation × Finset Qubit
  | [], coned => ([], coned)
  | op :: rest, coned =>
      if (op.qubits.toFinset ∩ coned).Nonempty then
        let r := processOpsRef rest (coned ∪ op.qubits.toFinset)
        (op :: r.1, r.2)
      else
        processOpsRef rest coned

/-- The outer loop with the whole-moment short circuit removed.  Modelled
from the spec: the reference version of the filter against which the
short-circuit steps are compared. -/
def processMomentsRef : List Moment → Finset Qubit → List Moment
  | [], _ => []
  | m :: rest, coned =>
      let r := processOpsRef m.reverse coned
      r.1.reverse :: processMomentsRef rest r.2

/-- get_lightcone_circuit with its two short-circuit steps removed. -/
def get_lightcone_circuit_ref (c : Circuit) (conedQubits : Finset Qubit) : Circuit :=
  (processMomentsRef c.reverse conedQubits).reverse

/-! ### Circuit unfolding (unfold_circuit) -/

/-- A dense array, represented by its shape; the element data lives in the
external numeric backend (cupy). -/
structure Tensor where
  shape : List Nat
deriving DecidableEq, Repr

/-- Modelled from the spec: the external framework produces a dense unitary
matrix for any gate, of dimension 2 to the k for an operation on k qubits. -/
def unitaryMatrix (op : Operation) : Tensor :=
  ⟨[2 ^ op.qubits.length, 2 ^ op.qubits.length]⟩

/-- Array reshape: succeeds exactly when the element count is preserved. -/
def Tensor.reshape (t : Tensor) (s : List Nat) : Option Tensor :=
  if t.shape.prod = s.prod then some ⟨s⟩ else none

/-- unfold_circuit: the sorted qubits of the circuit together with one
(reshaped unitary tensor, qubit tuple) pair per operation, in
moment-then-within-moment order. -/
def unfold_circuit (c : Circuit) : List Qubit × List (Option Tensor × List Qubit) :=
  ((allQubits c).sort (· ≤ ·),
    c.flatMap fun m =>
      m.map fun op =>
        ((unitaryMatrix op).reshape (List.replicate (2 * op.qubits.length) 2), op.qubits))

/-! ### Heap model for the frame claims

Python objects are mutable; a tiny heap of circuit objects makes the
mutation structure of the two functions explicit.  A reference is an index
into the heap; copying allocates a fresh reference, and batch_remove writes
through the reference it is handed. -/

/-- A heap of circuit objects, addressed by allocation index. -/
abbrev Heap := List Circuit

/-- Read the circuit stored at a reference. -/
def Heap.read (h : Heap) (r : Nat) : Circuit :=
  h.getD r []

/-- Allocate a fresh circuit object, returning the new heap and reference. -/
def Heap.alloc (h : Heap) (c : Circuit) : Heap × Nat :=
  (h ++ [c], h.length)

/-- Overwrite the circuit stored at a reference. -/
def Heap.write (h : Heap) (r : Nat) (c : Circuit) : Heap :=
  h.set r c

/-- remove_measurements acting on the heap: the input circuit is first
copied to a fresh reference, and batch_remove mutates only that copy. -/
def remove_measurements_st (h : Heap) (r : Nat) : Heap × Except CircuitError Nat :=
  let c := h.read r
  let a := h.alloc c
  if has_measurements c then
    if !areAllMeasurementsTerminal c then
      (a.1, .error .unsupportedCircuitError)
    else
      (a.1.write a.2 (stripMeasurements c), .ok a.2)
  else
    (a.1, .ok a.2)

/-- get_lightcone_circuit acting on the heap: the input circuit is only
read; the reduced circuit is allocated as a new object. -/
def get_lightcone_circuit_st (h : Heap) (r : Nat) (conedQubits : Finset Qubit) :
    Heap × Nat :=
  h.alloc (get_lightcone_circuit (h.read r) conedQubits)

/-! ## Helper lemmas on measurement stripping -/

theorem hasNonMeasFollower_eq_true (op : Operation) (later : List Moment) :
    hasNonMeasFollower op later = true ↔
      ∃ op2 ∈ later.flatten, op2.isMeas = false ∧ ∃ q ∈ op.qubits, q ∈ op2.qubits := by
  simp only [hasNonMeasFollower, sharesQubitWith, List.any_eq_true, Bool.and_eq_true,
    Bool.not_eq_true', List.mem_flatten, decide_eq_true_eq]
  constructor
  · rintro ⟨m, hm, op2, hop2, hnm, q, hq, hq2⟩
    exact ⟨op2, ⟨m, hm, hop2⟩, hnm, q, hq, hq2⟩
  · rintro ⟨op2, ⟨m, hm, hop2⟩, hnm, q, hq, hq2⟩
    exact ⟨m, hm, op2, hop2, hnm, q, hq, hq2⟩

theorem nonTerminalMeasurement_cons (m : Moment) (rest : Circuit) :
    NonTerminalMeasurement (m :: rest) ↔
      (∃ op ∈ m, op.isMeas = true ∧
        ∃ op2 ∈ rest.flatten, op2.isMeas = false ∧ ∃ q ∈ op.qubits, q ∈ op2.qubits) ∨
        NonTerminalMeasurement rest := by
  constructor
  · rintro ⟨i, hi, op, hop, hmeas, op2, hop2, hnm, q, hq, hq2⟩
    cases i with
    | zero => exact Or.inl ⟨op, hop, hmeas, op2, hop2, hnm, q, hq, hq2⟩
    | succ j =>
        refine Or.inr ⟨j, by simpa using hi, op, hop, hmeas, op2, ?_, hnm, q, hq, hq2⟩
        simpa using hop2
  · rintro (⟨op, hop, hmeas, op2, hop2, hnm, q, hq, hq2⟩ |
      ⟨i, hi, op, hop, hmeas, op2, hop2, hnm, q, hq, hq2⟩)
    · exact ⟨0, by simp, op, hop, hmeas, op2, hop2, hnm, q, hq, hq2⟩
    · exact ⟨i + 1, by simpa using hi, op, hop, hmeas, op2, by simpa using hop2,
        hnm, q, hq, hq2⟩

theorem areAllMeasurementsTerminal_eq_false (c : Circuit) :
    areAllMeasurementsTerminal c = false ↔ NonTerminalMeasurement c := by
  induction c with
  | nil =>
      simp [areAllMeasurementsTerminal, NonTerminalMeasurement]
  | cons m rest ih =>
      rw [nonTerminalMeasurement_cons, ← ih]
      simp only [areAllMeasurementsTerminal, Bool.and_eq_false_iff, List.all_eq_false,
        Bool.not_eq_true, Bool.or_eq_false_iff, Bool.not_eq_false']
      constructor
      · rintro (⟨op, hop, hmeas, hfoll⟩ | hrest)
        · exact Or.inl ⟨op, hop, hmeas, (hasNonMeasFollower_eq_true op rest).mp hfoll⟩
        · exact Or.inr hrest
      · rintro (⟨op, hop, hmeas, hfoll⟩ | hrest)
        · exact Or.inl ⟨op, hop, hmeas, (hasNonMeasFollower_eq_true op rest).mpr hfoll⟩
        · exact Or.inr hrest

theorem has_measurements_of_nonTerminal (c : Circuit)
    (h : NonTerminalMeasurement c) : has_measurements c = true := by
  obtain ⟨i, hi, op, hop, hmeas, -⟩ := h
  simp only [has_measurements, all_operations, List.any_eq_true, List.mem_flatten]
  exact ⟨op, ⟨c.get ⟨i, hi⟩, List.get_mem c i hi, hop⟩, hmeas⟩

theorem flatten_stripMeasurements (c : Circuit) :
    all_operations (stripMeasurements c) =
      (all_operations c).filter (fun op => !op.isMeas) := by
  induction c with
  | nil => rfl
  | cons m rest ih =>
      simp only [stripMeasurements, List.map_cons, all_operations, List.flatten_cons,
        List.filter_append] at ih ⊢
      rw [ih]

/-! ## Claims about remove_measurements -/

/-- Claim C1: for every circuit, remove_measurements raises
UnsupportedCircuitError if and only if the circuit contains a non-terminal
measurement (a measurement followed in circuit order by a non-measurement
operation on the same qubit); for all other circuits it returns normally. -/
theorem claim_C1_remove_measurements_error_iff (c : Circuit) :
    (remove_measurements c = .error .unsupportedCircuitError ↔ NonTerminalMeasurement c) ∧
      ((∃ c2, remove_measurements c = .ok c2) ↔ ¬ NonTerminalMeasurement c) := by
  by_cases h1 : has_measurements c
  · by_cases h2 : areAllMeasurementsTerminal c
    · have hnt : ¬ NonTerminalMeasurement c := by
        intro hn
        rw [← areAllMeasurementsTerminal_eq_false] at hn
        rw [h2] at hn
        cases hn
      constructor
      · simp [remove_measurements, h1, h2, hnt]
      · simpa [remove_measurements, h1, h2] using hnt
    · have h2f : areAllMeasurementsTerminal c = false := by
        cases h : areAllMeasurementsTerminal c
        · rfl
        · exact absurd h h2
      have hnt : NonTerminalMeasurement c := (areAllMeasurementsTerminal_eq_false c).mp h2f
      constructor
      · simp [remove_measurements, h1, h2f, hnt]
      · simp [remove_measurements, h1, h2f, hnt]
  · have hnt : ¬ NonTerminalMeasurement c := by
      intro hn
      exact h1 (has_measurements_of_nonTerminal c hn)
    constructor
    · simp [remove_measurements, h1, hnt]
    · simpa [remove_measurements, h1] using hnt

/-- Claim C6: for every circuit in which every measurement operation is
terminal, remove_measurements returns a circuit containing zero measurement
operations whose non-measurement operations are identical to, and in the
same order as, those of the input. -/
theorem claim_C6_remove_measurements_strips (c : Circuit)
    (h : ¬ NonTerminalMeasurement c) :
    ∃ c2, remove_measurements c = .ok c2 ∧
      (∀ op ∈ all_operations c2, op.isMeas = false) ∧
      all_operations c2 = (all_operations c).filter (fun op => !op.isMeas) := by
  have hterm : areAllMeasurementsTerminal c = true := by
    cases hb : areAllMeasurementsTerminal c
    · exact absurd ((areAllMeasurementsTerminal_eq_false c).mp hb) h
    · rfl
  by_cases h1 : has_measurements c
  · refine ⟨stripMeasurements c, ?_, ?_, flatten_stripMeasurements c⟩
    · simp [remove_measurements, h1, hterm]
    · intro op hop
      rw [flatten_stripMeasurements] at hop
      have := List.of_mem_filter hop
      simpa using this
  · have hall : ∀ op ∈ all_operations c, op.isMeas = false := by
      intro op hop
      by_contra hne
      have : op.isMeas = true := by
        cases hb : op.isMeas
        · exact absurd hb hne
        · rfl
      exact h1 (by simp only [has_measurements, List.any_eq_true]; exact ⟨op, hop, this⟩)
    refine ⟨c, by simp [remove_measurements, h1], hall, ?_⟩
    rw [List.filter_eq_self.mpr]
    intro op hop
    simp [hall op hop]

/-- Witness for claim C6 at a concrete circuit with one terminal
measurement. -/
theorem claim_C6_witness :
    (¬ NonTerminalMeasurement [[⟨0, false, [0]⟩], [⟨1, true, [0]⟩]]) ∧
      (∃ c2, remove_measurements [[⟨0, false, [0]⟩], [⟨1, true, [0]⟩]] = .ok c2 ∧
        (∀ op ∈ all_operations c2, op.isMeas = false) ∧
        all_operations c2 =
          (all_operations [[⟨0, false, [0]⟩], [⟨1, true, [0]⟩]]).filter
            (fun op => !op.isMeas)) := by
  have hnt : ¬ NonTerminalMeasurement [[⟨0, false, [0]⟩], [⟨1, true, [0]⟩]] := fun hn =>
    absurd ((areAllMeasurementsTerminal_eq_false _).mpr hn) (by decide)
  exact ⟨hnt, claim_C6_remove_measurements_strips _ hnt⟩

/-- Claim C10: for every circuit that contains no measurement operations,
remove_measurements returns a circuit equal to its input. -/
theorem claim_C10_remove_measurements_id (c : Circuit)
    (h : ∀ op ∈ all_operations c, op.isMeas = false) :
    remove_measurements c = .ok c := by
  have h1 : has_measurements c = false := by
    rw [has_measurements, List.any_eq_false]
    intro op hop
    simp [h op hop]
  simp [remove_measurements, h1]

/-- Witness for claim C10 at a concrete measurement-free circuit. -/
theorem claim_C10_witness :
    (∀ op ∈ all_operations [[⟨0, false, [0]⟩], [⟨1, false, [0, 1]⟩]], op.isMeas = false) ∧
      remove_measurements [[⟨0, false, [0]⟩], [⟨1, false, [0, 1]⟩]] =
        .ok [[⟨0, false, [0]⟩], [⟨1, false, [0, 1]⟩]] :=
  ⟨by decide, claim_C10_remove_measurements_id _ (by decide)⟩

/-! ## Helper lemmas on lightcone reduction -/

theorem processOps_fst_sublist (nq : Nat) :
    ∀ (ops : List Operation) (coned : Finset Qubit),
      (processOps nq ops coned).1.Sublist ops := by
  intro ops
  induction ops with
  | nil => intro coned; exact List.Sublist.refl _
  | cons op rest ih =>
      intro coned
      rw [processOps]
      by_cases hc : coned.card = nq
      · simp only [hc, if_pos rfl]
        exact List.Sublist.refl _
      · rw [if_neg hc]
        by_cases hi : (op.qubits.toFinset ∩ coned).Nonempty
        · rw [if_pos hi]
          exact List.Sublist.cons₂ op (ih (coned ∪ op.qubits.toFinset))
        · rw [if_neg hi]
          exact List.Sublist.cons op (ih coned)

theorem processMoments_forall₂_sublist (nq : Nat) :
    ∀ (ms : List Moment) (coned : Finset Qubit),
      List.Forall₂ (fun a b => List.Sublist a b) (processMoments nq ms coned) ms := by
  intro ms
  induction ms with
  | nil => intro coned; exact List.Forall₂.nil
  | cons m rest ih =>
      intro coned
      rw [processMoments]
      by_cases hc : coned.card = nq
      · rw [if_pos hc]
        exact List.forall₂_same.mpr (fun x _ => List.Sublist.refl x)
      · rw [if_neg hc]
        refine List.Forall₂.cons ?_ (ih _)
        have h := (processOps_fst_sublist nq m.reverse coned).reverse
        rwa [List.reverse_reverse] at h

theorem flatten_sublist_of_forall₂ :
    ∀ {l1 l2 : List Moment}, List.Forall₂ (fun a b => List.Sublist a b) l1 l2 →
      l1.flatten.Sublist l2.flatten := by
  intro l1 l2 h
  induction h with
  | nil => exact List.Sublist.refl _
  | cons hab _ ih =>
      simpa using List.Sublist.append hab ih

theorem get_lightcone_forall₂_sublist (c : Circuit) (T : Finset Qubit) :
    List.Forall₂ (fun a b => List.Sublist a b) (get_lightcone_circuit c T) c := by
  have h := processMoments_forall₂_sublist (allQubits c).card c.reverse T
  have h2 := List.rel_reverse h
  rwa [List.reverse_reverse] at h2

/-! ## Claims C3, C5, C8 -/

/-- Claim C3: for every circuit and every target qubit set, the operation
sequence of the reduced circuit (moment-then-within-moment order) is a
subsequence of the operation sequence of the original circuit, so the
relative order of any two retained operations is preserved. -/
theorem claim_C3_order_preservation (c : Circuit) (T : Finset Qubit) :
    (all_operations (get_lightcone_circuit c T)).Sublist (all_operations c) :=
  flatten_sublist_of_forall₂ (get_lightcone_forall₂_sublist c T)

/-- Claim C5: for every circuit, get_lightcone_circuit with target set equal
to the full qubit set of the circuit returns the input circuit unchanged. -/
theorem claim_C5_full_coverage_fixed_point (c : Circuit) :
    get_lightcone_circuit c (allQubits c) = c := by
  rw [get_lightcone_circuit]
  cases hc : c.reverse with
  | nil =>
      have : c = [] := by simpa using congrArg List.reverse hc.symm
      simp [processMoments, this]
  | cons m rest =>
      rw [processMoments, if_pos rfl, ← hc, List.reverse_reverse]

/-- Claim C8: for every circuit and every target qubit set,
get_lightcone_circuit terminates and returns one moment per input moment;
fully discarded moments are kept as empty moments, not dropped. -/
theorem claim_C8_moment_count (c : Circuit) (T : Finset Qubit) :
    (get_lightcone_circuit c T).length = c.length := by
  have h : ∀ (ms : List Moment) (coned : Finset Qubit),
      (processMoments (allQubits c).card ms coned).length = ms.length := by
    intro ms
    induction ms with
    | nil => intro coned; rfl
    | cons m rest ih =>
        intro coned
        rw [processMoments]
        by_cases hc : coned.card = (allQubits c).card
        · rw [if_pos hc]
        · rw [if_neg hc]
          simp [ih]
  simp [get_lightcone_circuit, h]

/-! ## Monotonicity of the lightcone filter -/

theorem qubits_subset_allQubits {c : Circuit} {op : Operation}
    (h : op ∈ all_operations c) : op.qubits.toFinset ⊆ allQubits c := by
  intro q hq
  rw [List.mem_toFinset] at hq
  rw [allQubits, List.mem_toFinset, List.mem_flatMap]
  exact ⟨op, h, hq⟩

theorem processOps_snd_subset (nq : Nat) (Q : Finset Qubit) :
    ∀ (ops : List Operation) (coned : Finset Qubit),
      coned ⊆ Q → (∀ op ∈ ops, op.qubits.toFinset ⊆ Q) →
      (processOps nq ops coned).2 ⊆ Q := by
  intro ops
  induction ops with
  | nil => intro coned hc _; exact hc
  | cons op rest ih =>
      intro coned hc hops
      rw [processOps]
      by_cases hcard : coned.card = nq
      · rw [if_pos hcard]; exact hc
      · rw [if_neg hcard]
        by_cases hi : (op.qubits.toFinset ∩ coned).Nonempty
        · rw [if_pos hi]
          exact ih (coned ∪ op.qubits.toFinset)
            (Finset.union_subset hc (hops op (List.mem_cons_self op rest)))
            (fun o ho => hops o (List.mem_cons_of_mem op ho))
        · rw [if_neg hi]
          exact ih coned hc (fun o ho => hops o (List.mem_cons_of_mem op ho))

theorem processOps_mono (Q : Finset Qubit) :
    ∀ (ops : List Operation) (c1 c2 : Finset Qubit),
      (∀ op ∈ ops, op.qubits.toFinset ⊆ Q) → c1 ⊆ c2 → c2 ⊆ Q →
      (processOps Q.card ops c1).1.Sublist (processOps Q.card ops c2).1 ∧
        (processOps Q.card ops c1).2 ⊆ (processOps Q.card ops c2).2 := by
  intro ops
  induction ops with
  | nil => intro c1 c2 _ h12 _; exact ⟨List.Sublist.refl _, h12⟩
  | cons op rest ih =>
      intro c1 c2 hops h12 h2Q
      have hopQ : op.qubits.toFinset ⊆ Q := hops op (List.mem_cons_self op rest)
      have hrest : ∀ o ∈ rest, o.qubits.toFinset ⊆ Q :=
        fun o ho => hops o (List.mem_cons_of_mem op ho)
      by_cases hc2 : c2.card = Q.card
      · have hRHS : processOps Q.card (op :: rest) c2 = (op :: rest, c2) := by
          rw [processOps, if_pos hc2]
        have hc2Q : c2 = Q := Finset.eq_of_subset_of_card_le h2Q (le_of_eq hc2.symm)
        rw [hRHS]
        refine ⟨processOps_fst_sublist Q.card (op :: rest) c1, ?_⟩
        have hsub := processOps_snd_subset Q.card Q (op :: rest) c1 (h12.trans h2Q) hops
        rw [hc2Q]
        exact hsub
      · have hc1 : ¬ c1.card = Q.card := by
          intro h
          have hle : c1.card ≤ c2.card := Finset.card_le_card h12
          have hle2 : c2.card ≤ Q.card := Finset.card_le_card h2Q
          omega
        rw [processOps, processOps, if_neg hc1, if_neg hc2]
        by_cases hi1 : (op.qubits.toFinset ∩ c1).Nonempty
        · have hi2 : (op.qubits.toFinset ∩ c2).Nonempty :=
            hi1.mono (Finset.inter_subset_inter (Finset.Subset.refl _) h12)
          rw [if_pos hi1, if_pos hi2]
          have := ih (c1 ∪ op.qubits.toFinset) (c2 ∪ op.qubits.toFinset) hrest
            (Finset.union_subset_union h12 (Finset.Subset.refl _))
            (Finset.union_subset h2Q hopQ)
          exact ⟨List.Sublist.cons₂ op this.1, this.2⟩
        · rw [if_neg hi1]
          by_cases hi2 : (op.qubits.toFinset ∩ c2).Nonempty
          · rw [if_pos hi2]
            have := ih c1 (c2 ∪ op.qubits.toFinset) hrest
              (h12.trans Finset.subset_union_left)
              (Finset.union_subset h2Q hopQ)
            exact ⟨List.Sublist.cons op this.1, this.2⟩
          · rw [if_neg hi2]
            exact ih c1 c2 hrest h12 h2Q

theorem processMoments_mono (Q : Finset Qubit) :
    ∀ (ms : List Moment) (c1 c2 : Finset Qubit),
      (∀ op ∈ ms.flatten, op.qubits.toFinset ⊆ Q) → c1 ⊆ c2 → c2 ⊆ Q →
      List.Forall₂ (fun a b => List.Sublist a b)
        (processMoments Q.card ms c1) (processMoments Q.card ms c2) := by
  intro ms
  induction ms with
  | nil => intro c1 c2 _ _ _; exact List.Forall₂.nil
  | cons m rest ih =>
      intro c1 c2 hops h12 h2Q
      have hm : ∀ op ∈ m.reverse, op.qubits.toFinset ⊆ Q := by
        intro op hop
        exact hops op (by
          rw [List.flatten_cons, List.mem_append]
          exact Or.inl (List.mem_reverse.mp hop))
      have hrest : ∀ op ∈ rest.flatten, op.qubits.toFinset ⊆ Q := by
        intro op hop
        exact hops op (by
          rw [List.flatten_cons, List.mem_append]
          exact Or.inr hop)
      by_cases hc2 : c2.card = Q.card
      · have hRHS : processMoments Q.card (m :: rest) c2 = m :: rest := by
          rw [processMoments, if_pos hc2]
        rw [hRHS]
        exact processMoments_forall₂_sublist Q.card (m :: rest) c1
      · have hc1 : ¬ c1.card = Q.card := by
          intro h
          have hle : c1.card ≤ c2.card := Finset.card_le_card h12
          have hle2 : c2.card ≤ Q.card := Finset.card_le_card h2Q
          omega
        rw [processMoments, processMoments, if_neg hc1, if_neg hc2]
        have hmono := processOps_mono Q m.reverse c1 c2 hm h12 h2Q
        refine List.Forall₂.cons (List.Sublist.reverse hmono.1) ?_
        exact ih (processOps Q.card m.reverse c1).2 (processOps Q.card m.reverse c2).2
          hrest hmono.2 (processOps_snd_subset Q.card Q m.reverse c2 h2Q hm)

/-! ## Claim C4 -/

/-- Claim C4 as stated is false: with a target set that is not contained in
the qubit set of the circuit, the short-circuit size test misfires.  On the
one-qubit circuit with one gate, targeting the foreign qubit 1 retains the
gate, while targeting the superset consisting of the foreign qubits 1 and 2
discards it. -/
theorem claim_C4_counterexample :
    ¬ (all_operations (get_lightcone_circuit [[⟨0, false, [0]⟩]] {1}) ⊆
        all_operations (get_lightcone_circuit [[⟨0, false, [0]⟩]] {1, 2})) := by
  decide

/-- Claim C4, amended: for every circuit and every pair of target qubit sets
with the smaller contained in the larger and the larger contained in the
qubit set of the circuit, the operations retained when targeting the larger
set include all operations retained when targeting the smaller set. -/
theorem claim_C4_amended_monotonicity (c : Circuit) (T' T : Finset Qubit)
    (hsub : T' ⊆ T) (hT : T ⊆ allQubits c) :
    all_operations (get_lightcone_circuit c T') ⊆
      all_operations (get_lightcone_circuit c T) := by
  have hops : ∀ op ∈ (c.reverse).flatten, op.qubits.toFinset ⊆ allQubits c := by
    intro op hop
    apply qubits_subset_allQubits
    rw [List.mem_flatten] at hop
    obtain ⟨m, hm, hopm⟩ := hop
    rw [all_operations, List.mem_flatten]
    exact ⟨m, List.mem_reverse.mp hm, hopm⟩
  have h := processMoments_mono (allQubits c) c.reverse T' T hops hsub hT
  exact (flatten_sublist_of_forall₂ (List.rel_reverse h)).subset

/-- Witness for the amended claim C4 on the three-qubit bridge circuit. -/
theorem claim_C4_witness :
    (({2} : Finset Qubit) ⊆ {1, 2} ∧
      ({1, 2} : Finset Qubit) ⊆
        allQubits [[⟨0, false, [0]⟩], [⟨1, false, [0, 1]⟩], [⟨2, false, [1, 2]⟩]]) ∧
      all_operations (get_lightcone_circuit
          [[⟨0, false, [0]⟩], [⟨1, false, [0, 1]⟩], [⟨2, false, [1, 2]⟩]] {2}) ⊆
        all_operations (get_lightcone_circuit
          [[⟨0, false, [0]⟩], [⟨1, false, [0, 1]⟩], [⟨2, false, [1, 2]⟩]] {1, 2}) :=
  ⟨⟨by decide, by decide⟩,
    claim_C4_amended_monotonicity _ {2} {1, 2} (by decide) (by decide)⟩

/-! ## Equivalence of the short-circuited and reference lightcone filters -/

theorem mem_flatten_reverse {op : Operation} {c : Circuit} :
    op ∈ c.reverse.flatten ↔ op ∈ c.flatten := by
  constructor
  · intro h
    rw [List.mem_flatten] at h
    obtain ⟨m, hm, hop⟩ := h
    rw [List.mem_flatten]
    exact ⟨m, List.mem_reverse.mp hm, hop⟩
  · intro h
    rw [List.mem_flatten] at h
    obtain ⟨m, hm, hop⟩ := h
    rw [List.mem_flatten]
    exact ⟨m, List.mem_reverse.mpr hm, hop⟩

theorem processOpsRef_of_full (Q : Finset Qubit) :
    ∀ (ops : List Operation),
      (∀ op ∈ ops, op.qubits ≠ [] ∧ op.qubits.toFinset ⊆ Q) →
      processOpsRef ops Q = (ops, Q) := by
  intro ops
  induction ops with
  | nil => intro _; rfl
  | cons op rest ih =>
      intro hops
      obtain ⟨hne, hsubQ⟩ := hops op (List.mem_cons_self op rest)
      obtain ⟨q, hq⟩ := List.exists_mem_of_ne_nil op.qubits hne
      have hqm : q ∈ op.qubits.toFinset := List.mem_toFinset.mpr hq
      have hi : (op.qubits.toFinset ∩ Q).Nonempty :=
        ⟨q, Finset.mem_inter.mpr ⟨hqm, hsubQ hqm⟩⟩
      rw [processOpsRef, if_pos hi, Finset.union_eq_left.mpr hsubQ,
        ih (fun o ho => hops o (List.mem_cons_of_mem op ho))]

theorem processMomentsRef_of_full (Q : Finset Qubit) :
    ∀ (ms : List Moment),
      (∀ op ∈ ms.flatten, op.qubits ≠ [] ∧ op.qubits.toFinset ⊆ Q) →
      processMomentsRef ms Q = ms := by
  intro ms
  induction ms with
  | nil => intro _; rfl
  | cons m rest ih =>
      intro hops
      have hm : ∀ op ∈ m.reverse, op.qubits ≠ [] ∧ op.qubits.toFinset ⊆ Q := by
        intro op hop
        exact hops op (by
          rw [List.flatten_cons, List.mem_append]
          exact Or.inl (List.mem_reverse.mp hop))
      have hrest : ∀ op ∈ rest.flatten, op.qubits ≠ [] ∧ op.qubits.toFinset ⊆ Q := by
        intro op hop
        exact hops op (by
          rw [List.flatten_cons, List.mem_append]
          exact Or.inr hop)
      rw [processMomentsRef, processOpsRef_of_full Q m.reverse hm]
      simp only [List.reverse_reverse]
      rw [ih hrest]

theorem processOps_eq_ref (Q : Finset Qubit) :
    ∀ (ops : List Operation) (coned : Finset Qubit), coned ⊆ Q →
      (∀ op ∈ ops, op.qubits ≠ [] ∧ op.qubits.toFinset ⊆ Q) →
      processOps Q.card ops coned = processOpsRef ops coned := by
  intro ops
  induction ops with
  | nil => intro coned _ _; rfl
  | cons op rest ih =>
      intro coned hcQ hops
      by_cases hc : coned.card = Q.card
      · have hQ : coned = Q := Finset.eq_of_subset_of_card_le hcQ (le_of_eq hc.symm)
        rw [hQ, processOps, if_pos rfl, processOpsRef_of_full Q _ hops]
      · rw [processOps, if_neg hc, processOpsRef]
        by_cases hi : (op.qubits.toFinset ∩ coned).Nonempty
        · rw [if_pos hi, if_pos hi,
            ih (coned ∪ op.qubits.toFinset)
              (Finset.union_subset hcQ (hops op (List.mem_cons_self op rest)).2)
              (fun o ho => hops o (List.mem_cons_of_mem op ho))]
        · rw [if_neg hi, if_neg hi]
          exact ih coned hcQ (fun o ho => hops o (List.mem_cons_of_mem op ho))

theorem processMoments_eq_ref (Q : Finset Qubit) :
    ∀ (ms : List Moment) (coned : Finset Qubit), coned ⊆ Q →
      (∀ op ∈ ms.flatten, op.qubits ≠ [] ∧ op.qubits.toFinset ⊆ Q) →
      processMoments Q.card ms coned = processMomentsRef ms coned := by
  intro ms
  induction ms with
  | nil => intro coned _ _; rfl
  | cons m rest ih =>
      intro coned hcQ hops
      have hm : ∀ op ∈ m.reverse, op.qubits ≠ [] ∧ op.qubits.toFinset ⊆ Q := by
        intro op hop
        exact hops op (by
          rw [List.flatten_cons, List.mem_append]
          exact Or.inl (List.mem_reverse.mp hop))
      have hrest : ∀ op ∈ rest.flatten, op.qubits ≠ [] ∧ op.qubits.toFinset ⊆ Q := by
        intro op hop
        exact hops op (by
          rw [List.flatten_cons, List.mem_append]
          exact Or.inr hop)
      by_cases hc : coned.card = Q.card
      · have hQ : coned = Q := Finset.eq_of_subset_of_card_le hcQ (le_of_eq hc.symm)
        rw [hQ, processMoments, if_pos rfl, processMomentsRef_of_full Q _ hops]
      · rw [processMoments, if_neg hc, processMomentsRef,
          processOps_eq_ref Q m.reverse coned hcQ hm]
        have hsnd : (processOpsRef m.reverse coned).2 ⊆ Q := by
          have h := processOps_snd_subset Q.card Q m.reverse coned hcQ
            (fun o ho => (hm o ho).2)
          rwa [processOps_eq_ref Q m.reverse coned hcQ hm] at h
        exact congrArg (fun l => (processOpsRef m.reverse coned).1.reverse :: l)
          (ih (processOpsRef m.reverse coned).2 hsnd hrest)

/-! ## Claim C2 -/

/-- Claim C2 as stated is false: with a target set not contained in the
qubit set of the circuit, the short-circuit size test misfires.  On the
one-qubit circuit with one gate, targeting the foreign qubit 1 makes the
short-circuited version keep the gate while the reference filter discards
it. -/
theorem claim_C2_counterexample :
    all_operations (get_lightcone_circuit [[⟨0, false, [0]⟩]] {1}) ≠
      all_operations (get_lightcone_circuit_ref [[⟨0, false, [0]⟩]] {1}) := by
  decide

/-- Claim C2, amended: for every circuit whose operations each act on at
least one qubit and every target set contained in the qubit set of the
circuit, get_lightcone_circuit with the two short-circuit steps removed
returns exactly the circuit produced by the implemented version. -/
theorem claim_C2_amended_short_circuit_equiv (c : Circuit) (T : Finset Qubit)
    (hne : ∀ op ∈ all_operations c, op.qubits ≠ []) (hT : T ⊆ allQubits c) :
    get_lightcone_circuit c T = get_lightcone_circuit_ref c T := by
  rw [get_lightcone_circuit, get_lightcone_circuit_ref,
    processMoments_eq_ref (allQubits c) c.reverse T hT]
  intro op hop
  have hmem : op ∈ all_operations c := mem_flatten_reverse.mp hop
  exact ⟨hne op hmem, qubits_subset_allQubits hmem⟩

/-- Witness for the amended claim C2 on the three-qubit bridge circuit. -/
theorem claim_C2_witness :
    ((∀ op ∈ all_operations
        [[⟨0, false, [0]⟩], [⟨1, false, [0, 1]⟩], [⟨2, false, [1, 2]⟩]],
        op.qubits ≠ []) ∧
      ({2} : Finset Qubit) ⊆
        allQubits [[⟨0, false, [0]⟩], [⟨1, false, [0, 1]⟩], [⟨2, false, [1, 2]⟩]]) ∧
      get_lightcone_circuit
          [[⟨0, false, [0]⟩], [⟨1, false, [0, 1]⟩], [⟨2, false, [1, 2]⟩]] {2} =
        get_lightcone_circuit_ref
          [[⟨0, false, [0]⟩], [⟨1, false, [0, 1]⟩], [⟨2, false, [1, 2]⟩]] {2} :=
  ⟨⟨by decide, by decide⟩,
    claim_C2_amended_short_circuit_equiv _ {2} (by decide) (by decide)⟩

/-! ## Claim C7: circuit unfolding -/

theorem flatMap_map_eq_map_flatten {α β : Type} (f : α → β) :
    ∀ (c : List (List α)), (c.flatMap fun m => m.map f) = c.flatten.map f := by
  intro c
  induction c with
  | nil => rfl
  | cons m rest ih =>
      simp only [List.flatMap_cons, List.flatten_cons, List.map_append, ih]

theorem reshape_unitaryMatrix (op : Operation) :
    (unitaryMatrix op).reshape (List.replicate (2 * op.qubits.length) 2) =
      some ⟨List.replicate (2 * op.qubits.length) 2⟩ := by
  rw [Tensor.reshape, if_pos]
  rw [unitaryMatrix, List.prod_replicate, List.prod_cons, List.prod_cons, List.prod_nil,
    mul_one, ← pow_add, two_mul]

/-- Claim C7: for every circuit, unfold_circuit returns the qubits of the
circuit sorted by their natural order together with one (tensor, qubit
tuple) pair per operation in moment-then-within-moment order, the tensor
for a k-qubit operation having shape (2,) repeated 2 times k. -/
theorem claim_C7_unfold_circuit (c : Circuit) :
    ((unfold_circuit c).1.Sorted (· ≤ ·) ∧ (unfold_circuit c).1.Nodup ∧
        ∀ q, (q ∈ (unfold_circuit c).1 ↔ q ∈ allQubits c)) ∧
      (unfold_circuit c).2 =
        (all_operations c).map
          (fun op => (some ⟨List.replicate (2 * op.qubits.length) 2⟩, op.qubits)) ∧
      (unfold_circuit c).2.length = (all_operations c).length := by
  have hmap : (unfold_circuit c).2 =
      (all_operations c).map
        (fun op => (some ⟨List.replicate (2 * op.qubits.length) 2⟩, op.qubits)) := by
    rw [unfold_circuit]
    rw [flatMap_map_eq_map_flatten
      (fun op => ((unitaryMatrix op).reshape (List.replicate (2 * op.qubits.length) 2),
        op.qubits)) c]
    simp only [reshape_unitaryMatrix, all_operations]
  refine ⟨⟨?_, ?_, fun q => ?_⟩, hmap, ?_⟩
  · show ((allQubits c).sort (· ≤ ·)).Sorted (· ≤ ·)
    exact Finset.sort_sorted _ _
  · show ((allQubits c).sort (· ≤ ·)).Nodup
    exact Finset.sort_nodup _ _
  · show q ∈ (allQubits c).sort (· ≤ ·) ↔ q ∈ allQubits c
    exact Finset.mem_sort _
  · rw [hmap, List.length_map]

/-! ## Claim C9: the inputs are not mutated -/

theorem Heap.read_append (h : Heap) (c : Circuit) (r : Nat) (hr : r < h.length) :
    Heap.read (h ++ [c]) r = h.read r := by
  rw [Heap.read, Heap.read, List.getD_append h [c] [] r hr]

theorem Heap.read_write_ne (h : Heap) (r r2 : Nat) (c : Circuit) (hne : r ≠ r2) :
    Heap.read (h.write r2 c) r = h.read r := by
  rw [Heap.read, Heap.read, Heap.write, List.getD, List.getD,
    List.get?_eq_getElem?, List.get?_eq_getElem?,
    List.getElem?_set_ne (fun he => hne he.symm)]

/-- Claim C9: for every heap of circuit objects and valid input reference,
remove_measurements and get_lightcone_circuit leave the circuit stored at
the input reference unchanged: both work on a copy or a freshly allocated
object. -/
theorem claim_C9_no_mutation (h : Heap) (r : Nat) (T : Finset Qubit)
    (hr : r < h.length) :
    (remove_measurements_st h r).1.read r = h.read r ∧
      (get_lightcone_circuit_st h r T).1.read r = h.read r := by
  constructor
  · rw [remove_measurements_st]
    by_cases h1 : has_measurements (h.read r)
    · by_cases h2 : areAllMeasurementsTerminal (h.read r)
      · simp only [h1, h2, Bool.not_true, if_true, if_false, Bool.false_eq_true]
        rw [Heap.alloc, Heap.read_write_ne _ _ _ _ (Nat.ne_of_lt hr),
          Heap.read_append _ _ _ hr]
      · have h2f : areAllMeasurementsTerminal (h.read r) = false := by
          cases hb : areAllMeasurementsTerminal (h.read r)
          · rfl
          · exact absurd hb h2
        simp only [h1, h2f, Bool.not_false, if_true]
        rw [Heap.alloc]
        exact Heap.read_append _ _ _ hr
    · have h1f : has_measurements (h.read r) = false := by
        cases hb : has_measurements (h.read r)
        · rfl
        · exact absurd hb h1
      simp only [h1f, Bool.false_eq_true, if_false]
      rw [Heap.alloc]
      exact Heap.read_append _ _ _ hr
  · rw [get_lightcone_circuit_st, Heap.alloc]
    exact Heap.read_append _ _ _ hr

/-- Witness for claim C9 on a one-element heap. -/
theorem claim_C9_witness :
    (0 < ([[[⟨0, false, [0]⟩]]] : Heap).length) ∧
      ((remove_measurements_st [[[⟨0, false, [0]⟩]]] 0).1.read 0 =
          Heap.read [[[⟨0, false, [0]⟩]]] 0 ∧
        (get_lightcone_circuit_st [[[⟨0, false, [0]⟩]]] 0 ∅).1.read 0 =
          Heap.read [[[⟨0, false, [0]⟩]]] 0) :=
  ⟨by decide, claim_C9_no_mutation [[[⟨0, false, [0]⟩]]] 0 ∅ (by decide)⟩

end CirqParserUtils
